import Mathlib

/-!
Verification of the streaming typewriter client in `src/web/app.js` of the
local-ai-storyteller repository.

The stream reveal engine is a small piece of global mutable state
(`streamQueue`, `streamTimer`, `streamRendered`, `pendingFinalizeFn`)
mutated by `startTypewriter`, the interval tick closure, `stopTypewriter`,
and the chunk/final handlers of `newStory`/`sendAction`.  We embed it as a
record `TW` with explicit state passing.  Text is modelled as `List Char`.
Timers are modelled by a list of live timer identifiers together with the
`streamTimer` handle variable; `setInterval` allocates a fresh identifier
and `clearInterval` removes the identifier named by the handle.  The
finalize closures are modelled as abstract action identifiers; the log
`fired` records, for every invocation of a pending finalize action, the
action identifier together with the length of `streamRendered` and of
`streamQueue` at the moment of invocation.  The log `updates` records
every string passed to the `onUpdate` callback.
-/

/-- Timer-speed constant from `app.js`: `const STREAM_MS_PER_CHAR = 14`. -/
def STREAM_MS_PER_CHAR : Nat := 14

/-- The global mutable state of the streaming typewriter in `app.js`,
plus two observation logs (`updates`, `fired`). -/
structure TW where
  streamQueue : List Char := []
  streamTimer : Option Nat := none
  liveTimers : List Nat := []
  nextId : Nat := 0
  streamRendered : List Char := []
  pendingFinalizeFn : Option Nat := none
  prefixText : List Char := []
  updates : List (List Char) := []
  fired : List (Nat × Nat × Nat) := []
  deriving Repr, DecidableEq

/-- The initial module state: empty queue, no timer, nothing rendered,
no pending finalize action. -/
def twInit : TW := {}

/-- Invocation of a pending finalize closure: the observation log records
the action identifier and the sizes of `streamRendered` and `streamQueue`
at the moment the closure runs. -/
def fireFinalize (a : Nat) (st : TW) : TW :=
  { st with fired := st.fired ++ [(a, st.streamRendered.length, st.streamQueue.length)] }

/-- `startTypewriter(prefix, onUpdate)` from `app.js`: sets
`streamRendered = ""`, clears the previous interval if the handle is set,
and installs a new interval whose closure captures `prefix` and
`onUpdate`.  Note that it does NOT touch `streamQueue` and does NOT clear
`pendingFinalizeFn`. -/
def startTypewriter (p : List Char) (st : TW) : TW :=
  let cleared := match st.streamTimer with
    | some h => st.liveTimers.erase h
    | none => st.liveTimers
  { st with
    streamRendered := [],
    liveTimers := cleared ++ [st.nextId],
    streamTimer := some st.nextId,
    nextId := st.nextId + 1,
    prefixText := p }

/-- The body of the interval closure installed by `startTypewriter`:
if the queue is empty, run a pending finalize action if any; otherwise
move `max(1, floor(30 / STREAM_MS_PER_CHAR))` characters from the front
of the queue to `streamRendered`, call `onUpdate(prefix + streamRendered)`
and, if the queue just drained and a finalize action is pending, run it. -/
def tickBody (st : TW) : TW :=
  if st.streamQueue = [] then
    match st.pendingFinalizeFn with
    | some a => fireFinalize a { st with pendingFinalizeFn := none }
    | none => st
  else
    let takeN := max 1 (30 / STREAM_MS_PER_CHAR)
    let chunk := st.streamQueue.take takeN
    let rest := st.streamQueue.drop takeN
    let rendered := st.streamRendered ++ chunk
    let st1 := { st with
      streamQueue := rest,
      streamRendered := rendered,
      updates := st.updates ++ [st.prefixText ++ rendered] }
    if rest = [] then
      match st1.pendingFinalizeFn with
      | some a => fireFinalize a { st1 with pendingFinalizeFn := none }
      | none => st1
    else st1

/-- One firing of the interval: the closure only runs while a timer is
live; with no live timer nothing happens. -/
def tick (st : TW) : TW :=
  if st.liveTimers = [] then st else tickBody st

/-- The `chunk` event handler core from `newStory`/`sendAction`:
`streamQueue += evt.text`. -/
def enqueueText (t : List Char) (st : TW) : TW :=
  { st with streamQueue := st.streamQueue ++ t }

/-- The `final` event handler core from `newStory`/`sendAction`: store the
finalize closure in `pendingFinalizeFn`; if `streamQueue` is empty, clear
it and run it immediately. -/
def finalizeEvent (a : Nat) (st : TW) : TW :=
  let st1 := { st with pendingFinalizeFn := some a }
  if st1.streamQueue = [] then
    fireFinalize a { st1 with pendingFinalizeFn := none }
  else st1

/-- `stopTypewriter()` from `app.js`: clear the interval if the handle is
set, null the handle, and reset `streamQueue` and `streamRendered`.
Note that it does NOT clear `pendingFinalizeFn`. -/
def stopTypewriter (st : TW) : TW :=
  let cleared := match st.streamTimer with
    | some h => st.liveTimers.erase h
    | none => st.liveTimers
  { st with
    liveTimers := cleared,
    streamTimer := none,
    streamQueue := [],
    streamRendered := [] }

/-- The operations that mutate the typewriter state. -/
inductive TWOp where
  | start (p : List Char)
  | enqueue (t : List Char)
  | tick
  | finalize (a : Nat)
  | stop
  deriving Repr, DecidableEq

/-- Apply one operation to the state. -/
def applyOp : TWOp → TW → TW
  | .start p, st => startTypewriter p st
  | .enqueue t, st => enqueueText t st
  | .tick, st => tick st
  | .finalize a, st => finalizeEvent a st
  | .stop, st => stopTypewriter st

/-- Run a sequence of operations from a given state. -/
def runOps (ops : List TWOp) (st : TW) : TW :=
  ops.foldl (fun s op => applyOp op s) st

/-- Well-formedness of the timer bookkeeping: the set of live timers is
exactly the one named by the `streamTimer` handle.  This holds in every
state reachable from `twInit`. -/
def timersOk (st : TW) : Bool :=
  match st.streamTimer with
  | some h => st.liveTimers = [h]
  | none => st.liveTimers = []

theorem runOps_nil (st : TW) : runOps [] st = st := rfl

theorem runOps_cons (op : TWOp) (ops : List TWOp) (st : TW) :
    runOps (op :: ops) st = runOps ops (applyOp op st) := rfl

theorem timersOk_startTypewriter (p : List Char) (st : TW) (h : timersOk st = true) :
    timersOk (startTypewriter p st) = true := by
  unfold timersOk at h ⊢
  cases hs : st.streamTimer with
  | none =>
    rw [hs] at h
    simp only [decide_eq_true_eq] at h
    simp [startTypewriter, hs, h]
  | some t =>
    rw [hs] at h
    simp only [decide_eq_true_eq] at h
    simp [startTypewriter, hs, h, List.erase]

theorem timersOk_stopTypewriter (st : TW) (h : timersOk st = true) :
    timersOk (stopTypewriter st) = true := by
  unfold timersOk at h ⊢
  cases hs : st.streamTimer with
  | none =>
    rw [hs] at h
    simp only [decide_eq_true_eq] at h
    simp [stopTypewriter, hs, h]
  | some t =>
    rw [hs] at h
    simp only [decide_eq_true_eq] at h
    simp [stopTypewriter, hs, h, List.erase]

theorem tickBody_timers (st : TW) :
    (tickBody st).streamTimer = st.streamTimer ∧ (tickBody st).liveTimers = st.liveTimers := by
  unfold tickBody fireFinalize
  dsimp only
  split
  · split <;> exact ⟨rfl, rfl⟩
  · split
    · split <;> exact ⟨rfl, rfl⟩
    · exact ⟨rfl, rfl⟩

theorem tick_timers (st : TW) :
    (tick st).streamTimer = st.streamTimer ∧ (tick st).liveTimers = st.liveTimers := by
  unfold tick
  split
  · exact ⟨rfl, rfl⟩
  · exact tickBody_timers st

theorem timersOk_congr (st st' : TW) (h1 : st'.streamTimer = st.streamTimer)
    (h2 : st'.liveTimers = st.liveTimers) : timersOk st' = timersOk st := by
  unfold timersOk
  rw [h1, h2]

theorem finalizeEvent_timers (a : Nat) (st : TW) :
    (finalizeEvent a st).streamTimer = st.streamTimer ∧
    (finalizeEvent a st).liveTimers = st.liveTimers := by
  unfold finalizeEvent fireFinalize
  dsimp only
  split <;> exact ⟨rfl, rfl⟩

theorem timersOk_applyOp (op : TWOp) (st : TW) (h : timersOk st = true) :
    timersOk (applyOp op st) = true := by
  cases op with
  | start p => exact timersOk_startTypewriter p st h
  | enqueue t => simpa [applyOp, timersOk, enqueueText] using h
  | tick =>
    have ht := tick_timers st
    unfold applyOp
    rw [timersOk_congr st (tick st) ht.1 ht.2]
    exact h
  | finalize a =>
    have hf := finalizeEvent_timers a st
    unfold applyOp
    rw [timersOk_congr st (finalizeEvent a st) hf.1 hf.2]
    exact h
  | stop => exact timersOk_stopTypewriter st h

theorem timersOk_clear (st : TW) (h : timersOk st = true) :
    (match st.streamTimer with
     | some t => st.liveTimers.erase t
     | none => st.liveTimers) = [] := by
  unfold timersOk at h
  cases hs : st.streamTimer with
  | none =>
    rw [hs] at h
    simpa using h
  | some t =>
    rw [hs] at h
    simp only [decide_eq_true_eq] at h
    simp [h, List.erase_cons_head]

theorem tick_of_no_timer (st : TW) (h : st.liveTimers = []) : tick st = st := by
  unfold tick
  rw [if_pos h]

theorem applyOp_tick (st : TW) : applyOp TWOp.tick st = tick st := rfl

theorem applyOp_enqueue (t : List Char) (st : TW) :
    applyOp (TWOp.enqueue t) st = enqueueText t st := rfl

theorem runOps_ticks_of_no_timer (n : Nat) (st : TW) (h : st.liveTimers = []) :
    runOps (List.replicate n TWOp.tick) st = st := by
  induction n with
  | zero => rfl
  | succ k ih =>
    rw [List.replicate_succ, runOps_cons, applyOp_tick, tick_of_no_timer st h]
    exact ih

/-- Claim C1, counterexample: `startTypewriter` does NOT clear `streamQueue`.
After a chunk has been enqueued (exactly the call path of the chunk handler
in `newStory`, which enqueues and only then calls `startTypewriter`), the
queue is still non-empty on return from `startTypewriter`. -/
theorem C1_counterexample :
    (runOps [TWOp.enqueue ('a' :: 'b' :: []), TWOp.start []] twInit).streamQueue
      = 'a' :: 'b' :: []
    ∧ ('a' :: 'b' :: []) ≠ ([] : List Char) := by
  exact ⟨rfl, by decide⟩

/-- Claim C1 (amended): `startTypewriter(prefix, onUpdate)` resets
`streamRendered` to empty and cancels any previously running tick timer, so
at most one timer is active on return; it leaves `streamQueue` unchanged
(the queue is NOT cleared).  In particular, calling start twice in a row
from the initial state (no intervening enqueue) yields a session with empty
queue, empty revealed text and exactly one active timer. -/
theorem C1_reset (st : TW) (p q : List Char) (h : timersOk st = true) :
    (startTypewriter p st).streamRendered = []
    ∧ (startTypewriter p st).streamQueue = st.streamQueue
    ∧ (startTypewriter p st).liveTimers = [st.nextId]
    ∧ timersOk (startTypewriter p st) = true
    ∧ (runOps [TWOp.start p, TWOp.start q] twInit).streamQueue = []
    ∧ (runOps [TWOp.start p, TWOp.start q] twInit).streamRendered = []
    ∧ (runOps [TWOp.start p, TWOp.start q] twInit).liveTimers = [1] := by
  refine ⟨rfl, rfl, ?_, timersOk_startTypewriter p st h, rfl, rfl, rfl⟩
  show (match st.streamTimer with
        | some t => st.liveTimers.erase t
        | none => st.liveTimers) ++ [st.nextId] = [st.nextId]
  rw [timersOk_clear st h]
  rfl

/-- Witness for C1_reset at a concrete state. -/
theorem C1_witness :
    timersOk twInit = true
    ∧ ((startTypewriter ('x' :: []) twInit).streamRendered = []
       ∧ (startTypewriter ('x' :: []) twInit).streamQueue = twInit.streamQueue
       ∧ (startTypewriter ('x' :: []) twInit).liveTimers = [twInit.nextId]
       ∧ timersOk (startTypewriter ('x' :: []) twInit) = true
       ∧ (runOps [TWOp.start ('x' :: []), TWOp.start ('y' :: [])] twInit).streamQueue = []
       ∧ (runOps [TWOp.start ('x' :: []), TWOp.start ('y' :: [])] twInit).streamRendered = []
       ∧ (runOps [TWOp.start ('x' :: []), TWOp.start ('y' :: [])] twInit).liveTimers = [1]) :=
  ⟨by decide, C1_reset twInit ('x' :: []) ('y' :: []) (by decide)⟩

/-- Claim C3, counterexample: `stopTypewriter` does NOT discard the pending
finalize action.  The action survives cancellation, and after a superseding
`startTypewriter` the first tick of the new timer runs the stale action:
the previously registered finalize action fires after cancel. -/
theorem C3_counterexample :
    (stopTypewriter { twInit with pendingFinalizeFn := some 7 }).pendingFinalizeFn = some 7
    ∧ (runOps [TWOp.start [], TWOp.enqueue ('a' :: 'b' :: []), TWOp.finalize 7,
        TWOp.stop, TWOp.start [], TWOp.tick] twInit).fired = [(7, 0, 0)] := by
  exact ⟨rfl, rfl⟩

/-- Claim C3 (amended): `stopTypewriter` stops the periodic task and clears
`streamQueue` and `streamRendered`, and while stopped no further tick ever
fires, so the session produces no further `onUpdate` calls and no finalize
action runs from it; but `pendingFinalizeFn` is NOT cleared: the pending
finalize action survives (its call sites null it separately) and can fire
once a later session starts a new timer. -/
theorem C3_cancel (st : TW) (n : Nat) (h : timersOk st = true) :
    (runOps (List.replicate n TWOp.tick) (stopTypewriter st)).streamQueue = []
    ∧ (runOps (List.replicate n TWOp.tick) (stopTypewriter st)).streamRendered = []
    ∧ (runOps (List.replicate n TWOp.tick) (stopTypewriter st)).streamTimer = none
    ∧ (runOps (List.replicate n TWOp.tick) (stopTypewriter st)).liveTimers = []
    ∧ (runOps (List.replicate n TWOp.tick) (stopTypewriter st)).updates = st.updates
    ∧ (runOps (List.replicate n TWOp.tick) (stopTypewriter st)).fired = st.fired
    ∧ (runOps (List.replicate n TWOp.tick) (stopTypewriter st)).pendingFinalizeFn
        = st.pendingFinalizeFn := by
  have hstop : (stopTypewriter st).liveTimers = [] := by
    show (match st.streamTimer with
          | some t => st.liveTimers.erase t
          | none => st.liveTimers) = []
    exact timersOk_clear st h
  rw [runOps_ticks_of_no_timer n (stopTypewriter st) hstop]
  exact ⟨rfl, rfl, rfl, hstop, rfl, rfl, rfl⟩

/-- A concrete state used in the witness for C3_cancel. -/
def c3State : TW :=
  { streamQueue := 'a' :: [], streamTimer := some 5, liveTimers := [5],
    nextId := 6, streamRendered := 'r' :: [], pendingFinalizeFn := some 9,
    prefixText := [], updates := [('u' :: [])], fired := [(1, 2, 3)] }

/-- Witness for C3_cancel at a concrete state. -/
theorem C3_witness :
    timersOk c3State = true
    ∧ ((runOps (List.replicate 4 TWOp.tick) (stopTypewriter c3State)).streamQueue = []
       ∧ (runOps (List.replicate 4 TWOp.tick) (stopTypewriter c3State)).streamRendered = []
       ∧ (runOps (List.replicate 4 TWOp.tick) (stopTypewriter c3State)).streamTimer = none
       ∧ (runOps (List.replicate 4 TWOp.tick) (stopTypewriter c3State)).liveTimers = []
       ∧ (runOps (List.replicate 4 TWOp.tick) (stopTypewriter c3State)).updates = c3State.updates
       ∧ (runOps (List.replicate 4 TWOp.tick) (stopTypewriter c3State)).fired = c3State.fired
       ∧ (runOps (List.replicate 4 TWOp.tick) (stopTypewriter c3State)).pendingFinalizeFn
           = c3State.pendingFinalizeFn) :=
  ⟨by decide, C3_cancel c3State 4 (by decide)⟩

/-- Claim C6: if the `final` event handler registers the finalize action
while `streamQueue` is already empty, the action runs synchronously within
the handler itself (the `fired` log grows during `finalizeEvent`, not on a
later tick), the stored action is cleared, and nothing else changes. -/
theorem C6_immediate_finalize (st : TW) (a : Nat) (h : st.streamQueue = []) :
    (finalizeEvent a st).fired = st.fired ++ [(a, st.streamRendered.length, 0)]
    ∧ (finalizeEvent a st).pendingFinalizeFn = none
    ∧ (finalizeEvent a st).streamRendered = st.streamRendered
    ∧ (finalizeEvent a st).updates = st.updates
    ∧ (finalizeEvent a st).streamQueue = [] := by
  simp [finalizeEvent, fireFinalize, h]

/-- Witness for C6_immediate_finalize at a concrete state. -/
theorem C6_witness :
    (finalizeEvent 3 (startTypewriter [] twInit)).fired
      = (startTypewriter [] twInit).fired
        ++ [(3, (startTypewriter [] twInit).streamRendered.length, 0)]
    ∧ (finalizeEvent 3 (startTypewriter [] twInit)).pendingFinalizeFn = none :=
  ⟨(C6_immediate_finalize (startTypewriter [] twInit) 3 (by decide)).1,
   (C6_immediate_finalize (startTypewriter [] twInit) 3 (by decide)).2.1⟩

theorem take2 : max 1 (30 / STREAM_MS_PER_CHAR) = 2 := rfl

theorem tick_step_nonempty (st : TW) (ht : st.liveTimers ≠ []) (hq : st.streamQueue ≠ []) :
    (tick st).streamQueue = st.streamQueue.drop 2
    ∧ (tick st).streamRendered = st.streamRendered ++ st.streamQueue.take 2
    ∧ (tick st).updates
        = st.updates ++ [st.prefixText ++ (st.streamRendered ++ st.streamQueue.take 2)]
    ∧ (tick st).liveTimers = st.liveTimers
    ∧ (tick st).streamTimer = st.streamTimer
    ∧ (tick st).prefixText = st.prefixText := by
  unfold tick
  rw [if_neg ht]
  unfold tickBody fireFinalize
  rw [if_neg hq]
  dsimp only
  simp only [take2]
  split
  · split <;> exact ⟨rfl, rfl, rfl, rfl, rfl, rfl⟩
  · exact ⟨rfl, rfl, rfl, rfl, rfl, rfl⟩

theorem tick_pending_none (st : TW) (hp : st.pendingFinalizeFn = none) :
    (tick st).pendingFinalizeFn = none ∧ (tick st).fired = st.fired := by
  unfold tick tickBody fireFinalize
  dsimp only
  rw [hp]
  by_cases h1 : st.liveTimers = []
  · rw [if_pos h1]
    exact ⟨hp, rfl⟩
  · rw [if_neg h1]
    by_cases h2 : st.streamQueue = []
    · rw [if_pos h2]
      exact ⟨hp, rfl⟩
    · rw [if_neg h2]
      split <;> exact ⟨rfl, rfl⟩

theorem tick_idle (st : TW) (hq : st.streamQueue = []) (hp : st.pendingFinalizeFn = none) :
    tick st = st := by
  unfold tick tickBody
  by_cases h1 : st.liveTimers = []
  · rw [if_pos h1]
  · rw [if_neg h1, if_pos hq, hp]

theorem runOps_ticks_idle (n : Nat) (st : TW) (hq : st.streamQueue = [])
    (hp : st.pendingFinalizeFn = none) :
    runOps (List.replicate n TWOp.tick) st = st := by
  induction n with
  | zero => rfl
  | succ k ih =>
    rw [List.replicate_succ, runOps_cons, applyOp_tick, tick_idle st hq hp]
    exact ih

theorem ticks_reveal_count (n : Nat) : ∀ st : TW, st.liveTimers ≠ [] →
    st.pendingFinalizeFn = none →
    (runOps (List.replicate n TWOp.tick) st).streamRendered.length
      = st.streamRendered.length + min st.streamQueue.length (2 * n) := by
  induction n with
  | zero =>
    intro st ht hp
    simp [runOps]
  | succ k ih =>
    intro st ht hp
    rw [List.replicate_succ, runOps_cons, applyOp_tick]
    by_cases hq : st.streamQueue = []
    · rw [tick_idle st hq hp, ih st ht hp, hq]
      simp
    · have hfields := tick_step_nonempty st ht hq
      have hpend := tick_pending_none st hp
      have ht2 : (tick st).liveTimers ≠ [] := by
        rw [hfields.2.2.2.1]
        exact ht
      have hL : 0 < st.streamQueue.length := List.length_pos.mpr hq
      rw [ih (tick st) ht2 hpend.1, hfields.2.1, hfields.1]
      simp only [List.length_append, List.length_take, List.length_drop]
      omega

/-- Claim C5: with the constant `STREAM_MS_PER_CHAR = 14`, each tick takes
`max(1, floor(30 / 14)) = 2` characters: a tick with a non-empty queue
slices the first two characters off the queue and appends them to the
revealed text, and after N ticks on a session whose queue holds L enqueued
characters the revealed length is `min L (2 * N)`. -/
theorem C5_pacing :
    max 1 (30 / STREAM_MS_PER_CHAR) = 2
    ∧ (∀ st : TW, st.liveTimers ≠ [] → st.streamQueue ≠ [] →
        (tick st).streamQueue = st.streamQueue.drop 2
        ∧ (tick st).streamRendered = st.streamRendered ++ st.streamQueue.take 2)
    ∧ (∀ (T p : List Char) (n : Nat),
        (runOps (List.replicate n TWOp.tick)
            (enqueueText T (startTypewriter p twInit))).streamRendered.length
          = min T.length (2 * n)) := by
  refine ⟨rfl, ?_, ?_⟩
  · intro st ht hq
    exact ⟨(tick_step_nonempty st ht hq).1, (tick_step_nonempty st ht hq).2.1⟩
  · intro T p n
    have ht : (enqueueText T (startTypewriter p twInit)).liveTimers ≠ [] := by
      rw [show (enqueueText T (startTypewriter p twInit)).liveTimers = [0] from rfl]
      simp
    have h := ticks_reveal_count n (enqueueText T (startTypewriter p twInit)) ht rfl
    have e1 : (enqueueText T (startTypewriter p twInit)).streamRendered = [] := rfl
    have e2 : (enqueueText T (startTypewriter p twInit)).streamQueue = T := rfl
    rw [h, e1, e2]
    simp

/-- A concrete state used in the witness for C5_pacing. -/
def c5State : TW :=
  { twInit with
    liveTimers := [0],
    streamTimer := some 0,
    streamQueue := 'a' :: 'b' :: 'c' :: [] }

/-- Witness for C5_pacing at concrete inputs. -/
theorem C5_witness :
    ((tick c5State).streamQueue = c5State.streamQueue.drop 2
     ∧ (tick c5State).streamRendered = c5State.streamRendered ++ c5State.streamQueue.take 2)
    ∧ (runOps (List.replicate 2 TWOp.tick)
        (enqueueText ('a' :: 'b' :: 'c' :: 'd' :: 'e' :: [])
          (startTypewriter [] twInit))).streamRendered.length
        = min ('a' :: 'b' :: 'c' :: 'd' :: 'e' :: []).length (2 * 2) :=
  ⟨C5_pacing.2.1 _ (by decide) (by decide), C5_pacing.2.2 _ [] 2⟩

/-- The chunk/tick operations (the only operations the stream event loop
performs between `start` and the terminal event). -/
def isEnqTick : TWOp → Bool
  | TWOp.enqueue _ => true
  | TWOp.tick => true
  | _ => false

/-- Concatenation, in order, of all texts enqueued by a sequence of
operations. -/
def enqueuedText : List TWOp → List Char
  | [] => []
  | TWOp.enqueue t :: rest => t ++ enqueuedText rest
  | _ :: rest => enqueuedText rest

theorem enqueueText_fields (t : List Char) (st : TW) :
    (enqueueText t st).streamRendered = st.streamRendered
    ∧ (enqueueText t st).streamQueue = st.streamQueue ++ t
    ∧ (enqueueText t st).pendingFinalizeFn = st.pendingFinalizeFn
    ∧ (enqueueText t st).fired = st.fired
    ∧ (enqueueText t st).liveTimers = st.liveTimers
    ∧ (enqueueText t st).prefixText = st.prefixText
    ∧ (enqueueText t st).updates = st.updates :=
  ⟨rfl, rfl, rfl, rfl, rfl, rfl, rfl⟩

theorem enqTick_keeps (ops : List TWOp) : ∀ st : TW, ops.all isEnqTick = true →
    st.pendingFinalizeFn = none →
    (runOps ops st).streamRendered ++ (runOps ops st).streamQueue
        = st.streamRendered ++ st.streamQueue ++ enqueuedText ops
    ∧ (runOps ops st).pendingFinalizeFn = none
    ∧ (runOps ops st).fired = st.fired
    ∧ (runOps ops st).liveTimers = st.liveTimers
    ∧ (runOps ops st).prefixText = st.prefixText := by
  induction ops with
  | nil =>
    intro st _ hp
    simp [runOps, enqueuedText, hp]
  | cons op rest ih =>
    intro st hall hp
    rw [List.all_cons, Bool.and_eq_true] at hall
    obtain ⟨hop, hrest⟩ := hall
    cases op with
    | enqueue t =>
      rw [runOps_cons, applyOp_enqueue]
      have h2 := ih (enqueueText t st) hrest
        (by rw [(enqueueText_fields t st).2.2.1]; exact hp)
      obtain ⟨ha, hb, hc, hd, he⟩ := h2
      refine ⟨?_, hb, ?_, ?_, ?_⟩
      · rw [ha, (enqueueText_fields t st).1, (enqueueText_fields t st).2.1]
        show _ = st.streamRendered ++ st.streamQueue ++ (t ++ enqueuedText rest)
        simp [List.append_assoc]
      · rw [hc, (enqueueText_fields t st).2.2.2.1]
      · rw [hd, (enqueueText_fields t st).2.2.2.2.1]
      · rw [he, (enqueueText_fields t st).2.2.2.2.2.1]
    | tick =>
      rw [runOps_cons, applyOp_tick]
      show _ ∧ _
      by_cases ht : st.liveTimers = []
      · rw [tick_of_no_timer st ht]
        exact ih st hrest hp
      · by_cases hq : st.streamQueue = []
        · rw [tick_idle st hq hp]
          exact ih st hrest hp
        · have hf := tick_step_nonempty st ht hq
          have hpend := tick_pending_none st hp
          have h2 := ih (tick st) hrest hpend.1
          obtain ⟨ha, hb, hc, hd, he⟩ := h2
          refine ⟨?_, hb, ?_, ?_, ?_⟩
          · rw [ha, hf.1, hf.2.1]
            show st.streamRendered ++ st.streamQueue.take 2 ++ st.streamQueue.drop 2
                ++ enqueuedText rest = _
            rw [List.append_assoc st.streamRendered, List.take_append_drop]
            rfl
          · rw [hc, hpend.2]
          · rw [hd, hf.2.2.2.1]
          · rw [he, hf.2.2.2.2.2]
    | start p => exact absurd hop (by simp [isEnqTick])
    | finalize a => exact absurd hop (by simp [isEnqTick])
    | stop => exact absurd hop (by simp [isEnqTick])

theorem tick_fire_empty (st : TW) (a : Nat) (ht : st.liveTimers ≠ [])
    (hq : st.streamQueue = []) (hp : st.pendingFinalizeFn = some a) :
    tick st = fireFinalize a { st with pendingFinalizeFn := none } := by
  unfold tick
  rw [if_neg ht]
  unfold tickBody
  rw [if_pos hq, hp]

theorem tick_fire_drain (st : TW) (a : Nat) (ht : st.liveTimers ≠ [])
    (hq : st.streamQueue ≠ []) (hd : st.streamQueue.drop 2 = [])
    (hp : st.pendingFinalizeFn = some a) :
    tick st = fireFinalize a
      { st with
        streamQueue := [],
        streamRendered := st.streamRendered ++ st.streamQueue.take 2,
        updates := st.updates ++ [st.prefixText ++ (st.streamRendered ++ st.streamQueue.take 2)],
        pendingFinalizeFn := none } := by
  unfold tick
  rw [if_neg ht]
  unfold tickBody
  rw [if_neg hq]
  dsimp only
  simp only [take2]
  rw [if_pos hd, hp, hd]

theorem tick_nodrain (st : TW) (ht : st.liveTimers ≠ []) (hq : st.streamQueue ≠ [])
    (hd : st.streamQueue.drop 2 ≠ []) :
    (tick st).pendingFinalizeFn = st.pendingFinalizeFn ∧ (tick st).fired = st.fired := by
  unfold tick
  rw [if_neg ht]
  unfold tickBody
  rw [if_neg hq]
  dsimp only
  simp only [take2]
  rw [if_neg hd]
  exact ⟨rfl, rfl⟩

theorem fireFinalize_fields (a : Nat) (st : TW) :
    (fireFinalize a st).fired = st.fired ++ [(a, st.streamRendered.length, st.streamQueue.length)]
    ∧ (fireFinalize a st).pendingFinalizeFn = st.pendingFinalizeFn
    ∧ (fireFinalize a st).streamQueue = st.streamQueue
    ∧ (fireFinalize a st).streamRendered = st.streamRendered
    ∧ (fireFinalize a st).liveTimers = st.liveTimers :=
  ⟨rfl, rfl, rfl, rfl, rfl⟩

theorem drain_fires (n : Nat) : ∀ (st : TW) (a : Nat), st.liveTimers ≠ [] →
    st.pendingFinalizeFn = some a → 1 ≤ n → st.streamQueue.length ≤ 2 * n →
    (runOps (List.replicate n TWOp.tick) st).fired
        = st.fired ++ [(a, st.streamRendered.length + st.streamQueue.length, 0)]
    ∧ (runOps (List.replicate n TWOp.tick) st).pendingFinalizeFn = none := by
  induction n with
  | zero =>
    intro st a _ _ h1 _
    exact absurd h1 (by decide)
  | succ k ih =>
    intro st a ht hp _ hlen
    rw [List.replicate_succ, runOps_cons, applyOp_tick]
    by_cases hq : st.streamQueue = []
    · rw [tick_fire_empty st a ht hq hp]
      rw [runOps_ticks_idle k _ (by rw [hq]; rfl) rfl]
      constructor
      · show st.fired ++ [(a, st.streamRendered.length, st.streamQueue.length)] = _
        rw [hq]
        simp
      · rfl
    · by_cases hd : st.streamQueue.drop 2 = []
      · rw [tick_fire_drain st a ht hq hd hp]
        rw [runOps_ticks_idle k _ rfl rfl]
        constructor
        · show st.fired ++ [(a, (st.streamRendered ++ st.streamQueue.take 2).length, _)] = _
          have htake : st.streamQueue.take 2 = st.streamQueue := by
            have hle : st.streamQueue.length ≤ 2 := by
              have := List.length_drop 2 st.streamQueue
              rw [hd] at this
              simp at this
              omega
            exact List.take_of_length_le hle
          rw [htake, List.length_append]
          rfl
        · rfl
      · have hf := tick_step_nonempty st ht hq
        have hpn := tick_nodrain st ht hq hd
        have hL : 2 < st.streamQueue.length := by
          by_contra hcon
          exact hd (List.drop_eq_nil_of_le (by omega))
        have h2 := ih (tick st) a (by rw [hf.2.2.2.1]; exact ht)
          (by rw [hpn.1]; exact hp)
          (by omega)
          (by rw [hf.1, List.length_drop]; omega)
        refine ⟨?_, h2.2⟩
        rw [h2.1, hpn.2, hf.1, hf.2.1]
        rw [List.length_append, List.length_take, List.length_drop]
        have : min 2 st.streamQueue.length = 2 := by omega
        rw [this]
        have harith : st.streamRendered.length + 2 + (st.streamQueue.length - 2)
            = st.streamRendered.length + st.streamQueue.length := by omega
        rw [harith]

theorem finalizeEvent_empty (a : Nat) (st : TW) (hq : st.streamQueue = []) :
    finalizeEvent a st
      = { st with
          pendingFinalizeFn := none,
          fired := st.fired ++ [(a, st.streamRendered.length, 0)] } := by
  unfold finalizeEvent fireFinalize
  dsimp only
  rw [if_pos hq, hq]
  rfl

theorem finalizeEvent_nonempty (a : Nat) (st : TW) (hq : st.streamQueue ≠ []) :
    finalizeEvent a st = { st with pendingFinalizeFn := some a } := by
  unfold finalizeEvent fireFinalize
  dsimp only
  rw [if_neg hq]

/-- Claim C2: in a session started by `startTypewriter` and driven by any
sequence of enqueue/tick steps, once the `final` handler registers the
finalize action and enough ticks follow, the action fires exactly once
(the `fired` log is a singleton); at the moment it runs the queue is empty
(third component 0) and the number of revealed characters equals the total
number of enqueued characters (second component); the stored action is
cleared before invocation and stays cleared, so later ticks cannot run it
again. -/
theorem C2_finalize_once (p : List Char) (ops1 : List TWOp) (a : Nat) (n : Nat)
    (h1 : ops1.all isEnqTick = true) (hn : 1 ≤ n)
    (hlen : (runOps ops1 (startTypewriter p twInit)).streamQueue.length ≤ 2 * n) :
    (runOps (List.replicate n TWOp.tick)
        (finalizeEvent a (runOps ops1 (startTypewriter p twInit)))).fired
      = [(a, (enqueuedText ops1).length, 0)]
    ∧ (runOps (List.replicate n TWOp.tick)
        (finalizeEvent a (runOps ops1 (startTypewriter p twInit)))).pendingFinalizeFn
      = none := by
  have hbase := enqTick_keeps ops1 (startTypewriter p twInit) h1 rfl
  have hsum : (runOps ops1 (startTypewriter p twInit)).streamRendered.length
      + (runOps ops1 (startTypewriter p twInit)).streamQueue.length
      = (enqueuedText ops1).length := by
    have hlen2 := congrArg List.length hbase.1
    rw [List.length_append] at hlen2
    rw [hlen2]
    rfl
  have hfired : (runOps ops1 (startTypewriter p twInit)).fired = [] := hbase.2.2.1
  have htimers : (runOps ops1 (startTypewriter p twInit)).liveTimers = [0] := by
    rw [hbase.2.2.2.1]
    rfl
  by_cases hq : (runOps ops1 (startTypewriter p twInit)).streamQueue = []
  · rw [finalizeEvent_empty a _ hq]
    have hidle := runOps_ticks_idle n
      { runOps ops1 (startTypewriter p twInit) with
        pendingFinalizeFn := none,
        fired := (runOps ops1 (startTypewriter p twInit)).fired
          ++ [(a, (runOps ops1 (startTypewriter p twInit)).streamRendered.length, 0)] }
      hq rfl
    rw [hidle]
    refine ⟨?_, rfl⟩
    show (runOps ops1 (startTypewriter p twInit)).fired
        ++ [(a, (runOps ops1 (startTypewriter p twInit)).streamRendered.length, 0)] = _
    have hr : (runOps ops1 (startTypewriter p twInit)).streamRendered.length
        = (enqueuedText ops1).length := by
      rw [hq] at hsum
      simpa using hsum
    rw [hfired, hr]
    rfl
  · rw [finalizeEvent_nonempty a _ hq]
    have hd := drain_fires n { runOps ops1 (startTypewriter p twInit) with
        pendingFinalizeFn := some a } a
      (by show (runOps ops1 (startTypewriter p twInit)).liveTimers ≠ []
          rw [htimers]; simp)
      rfl hn
      (by show (runOps ops1 (startTypewriter p twInit)).streamQueue.length ≤ 2 * n
          exact hlen)
    refine ⟨?_, hd.2⟩
    rw [hd.1]
    show (runOps ops1 (startTypewriter p twInit)).fired
        ++ [(a, (runOps ops1 (startTypewriter p twInit)).streamRendered.length
              + (runOps ops1 (startTypewriter p twInit)).streamQueue.length, 0)] = _
    rw [hfired, hsum]
    rfl

/-- Witness for C2_finalize_once at concrete inputs. -/
theorem C2_witness :
    (runOps (List.replicate 2 TWOp.tick)
        (finalizeEvent 5 (runOps [TWOp.enqueue ('a' :: 'b' :: 'c' :: []), TWOp.tick]
          (startTypewriter [] twInit)))).fired
      = [(5, (enqueuedText [TWOp.enqueue ('a' :: 'b' :: 'c' :: []), TWOp.tick]).length, 0)]
    ∧ (runOps (List.replicate 2 TWOp.tick)
        (finalizeEvent 5 (runOps [TWOp.enqueue ('a' :: 'b' :: 'c' :: []), TWOp.tick]
          (startTypewriter [] twInit)))).pendingFinalizeFn
      = none :=
  C2_finalize_once [] [TWOp.enqueue ('a' :: 'b' :: 'c' :: []), TWOp.tick] 5 2
    (by decide) (by decide) (by decide)

/-- A session state: `startTypewriter` followed by a sequence of engine
operations. -/
def session (p : List Char) (ops : List TWOp) : TW :=
  runOps ops (startTypewriter p twInit)

/-- Invariant on the `onUpdate` log of a running session: every logged
string is the prefix followed by an initial segment of the revealed text,
and the most recent logged string shows the whole revealed text. -/
def updInv (st : TW) : Prop :=
  (∀ u ∈ st.updates, ∃ k, k ≤ st.streamRendered.length
      ∧ u = st.prefixText ++ st.streamRendered.take k)
  ∧ (st.updates = [] ∨ st.updates.getLast? = some (st.prefixText ++ st.streamRendered))

theorem updInv_tick (st : TW) (hp : st.pendingFinalizeFn = none) (h : updInv st) :
    updInv (tick st) := by
  by_cases ht : st.liveTimers = []
  · rw [tick_of_no_timer st ht]
    exact h
  · by_cases hq : st.streamQueue = []
    · rw [tick_idle st hq hp]
      exact h
    · have hf := tick_step_nonempty st ht hq
      constructor
      · intro u hu
        rw [hf.2.2.1] at hu
        rw [List.mem_append] at hu
        cases hu with
        | inl hu =>
          obtain ⟨k, hk, he⟩ := h.1 u hu
          refine ⟨k, ?_, ?_⟩
          · rw [hf.2.1, List.length_append]
            omega
          · rw [hf.2.1, hf.2.2.2.2.2, List.take_append_eq_append_take]
            have hk0 : k - st.streamRendered.length = 0 := by omega
            rw [hk0]
            simpa using he
        | inr hu =>
          rw [List.mem_singleton] at hu
          refine ⟨(tick st).streamRendered.length, le_refl _, ?_⟩
          rw [List.take_length, hf.2.2.2.2.2, hu, hf.2.1]
      · right
        rw [hf.2.2.1, List.getLast?_concat, hf.2.1, hf.2.2.2.2.2]

theorem updInv_enqueue (t : List Char) (st : TW) (h : updInv st) :
    updInv (enqueueText t st) := h

theorem updInv_runOps (ops : List TWOp) : ∀ st : TW, ops.all isEnqTick = true →
    st.pendingFinalizeFn = none → updInv st → updInv (runOps ops st) := by
  induction ops with
  | nil => intro st _ _ h; exact h
  | cons op rest ih =>
    intro st hall hp h
    rw [List.all_cons, Bool.and_eq_true] at hall
    obtain ⟨hop, hrest⟩ := hall
    cases op with
    | enqueue t =>
      rw [runOps_cons, applyOp_enqueue]
      exact ih (enqueueText t st) hrest hp (updInv_enqueue t st h)
    | tick =>
      rw [runOps_cons, applyOp_tick]
      exact ih (tick st) hrest (tick_pending_none st hp).1 (updInv_tick st hp h)
    | start p => exact absurd hop (by simp [isEnqTick])
    | finalize a => exact absurd hop (by simp [isEnqTick])
    | stop => exact absurd hop (by simp [isEnqTick])

/-- Claim C4: order preservation.  For any interleaving of enqueues (with
texts T1, ..., Tn in order) and ticks in one session, the revealed text
followed by the still-queued text is exactly the concatenation T1...Tn
(characters are consumed strictly from the front); every string passed to
`onUpdate` is the prefix followed by an initial segment of that
concatenation; and once the queue has drained, the revealed text is the
whole concatenation and the last `onUpdate` call carried exactly
`prefix ++ T1...Tn`. -/
theorem C4_order (p : List Char) (ops : List TWOp) (h : ops.all isEnqTick = true) :
    (session p ops).streamRendered ++ (session p ops).streamQueue = enqueuedText ops
    ∧ (∀ u ∈ (session p ops).updates, ∃ k, u = p ++ (enqueuedText ops).take k)
    ∧ ((session p ops).streamQueue = [] →
        (session p ops).streamRendered = enqueuedText ops)
    ∧ ((session p ops).streamQueue = [] → (session p ops).updates ≠ [] →
        (session p ops).updates.getLast? = some (p ++ enqueuedText ops)) := by
  have hbase := enqTick_keeps ops (startTypewriter p twInit) h rfl
  have hJ : (session p ops).streamRendered ++ (session p ops).streamQueue
      = enqueuedText ops := by
    have := hbase.1
    simpa [session] using this
  have hpfx : (session p ops).prefixText = p := by
    show (runOps ops (startTypewriter p twInit)).prefixText = p
    rw [hbase.2.2.2.2]
    rfl
  have hinv : updInv (session p ops) := by
    refine updInv_runOps ops (startTypewriter p twInit) h rfl ⟨?_, Or.inl rfl⟩
    intro u hu
    simp only [show (startTypewriter p twInit).updates = [] from rfl] at hu
    exact absurd hu (List.not_mem_nil u)
  have hrend : (session p ops).streamRendered
      = (enqueuedText ops).take (session p ops).streamRendered.length := by
    rw [← hJ, List.take_left]
  refine ⟨hJ, ?_, ?_, ?_⟩
  · intro u hu
    obtain ⟨k, hk, he⟩ := hinv.1 u hu
    refine ⟨k, ?_⟩
    rw [he, hpfx]
    have htk : (session p ops).streamRendered.take k = (enqueuedText ops).take k := by
      conv_lhs => rw [hrend]
      rw [List.take_take, min_eq_left hk]
    rw [htk]
  · intro hq
    have := hJ
    rw [hq, List.append_nil] at this
    exact this
  · intro hq hne
    cases hinv.2 with
    | inl h0 => exact absurd h0 hne
    | inr hl =>
      rw [hl, hpfx]
      have hr : (session p ops).streamRendered = enqueuedText ops := by
        have := hJ
        rw [hq, List.append_nil] at this
        exact this
      rw [hr]

/-- Witness for C4_order at concrete inputs. -/
theorem C4_witness :
    (session ('P' :: []) [TWOp.enqueue ('a' :: 'b' :: []), TWOp.tick,
        TWOp.enqueue ('c' :: []), TWOp.tick, TWOp.tick]).streamRendered
      ++ (session ('P' :: []) [TWOp.enqueue ('a' :: 'b' :: []), TWOp.tick,
        TWOp.enqueue ('c' :: []), TWOp.tick, TWOp.tick]).streamQueue
      = enqueuedText [TWOp.enqueue ('a' :: 'b' :: []), TWOp.tick,
        TWOp.enqueue ('c' :: []), TWOp.tick, TWOp.tick] :=
  (C4_order ('P' :: []) [TWOp.enqueue ('a' :: 'b' :: []), TWOp.tick,
    TWOp.enqueue ('c' :: []), TWOp.tick, TWOp.tick] (by decide)).1

/-!
Choice extraction (`renderStory` in `app.js`).  The transcript/choices
split is a pure function of the trimmed story text: a global regex scan
for `(^|\n)1\.\s+` records the adjusted index of every match (the index
just past the captured newline) and keeps the last; the text before that
index (right-trimmed) is the transcript and the text from it on is split
into lines, each trimmed, blank lines removed, lines matching
`^[1-3]\.\s+` kept (at most three), and the payload of each is the text
after the numeral, dot and whitespace run.  JavaScript regex iteration
with `exec` resumes at `lastIndex`, i.e. just past the previous match,
whose greedy `\s+` may have consumed the newline that would have started
the next match.  The scan below reproduces that behaviour exactly.
-/

/-- The JavaScript whitespace class used by `\s` and `trim()` (the
members that can occur in practice here). -/
def jsWhitespace (c : Char) : Bool :=
  c = ' ' || c = '\t' || c = '\n' || c = '\r' || c = '\x0B' || c = '\x0C'
    || c = ' ' || c = '﻿'

/-- `String.prototype.trimStart`. -/
def jsTrimStart (l : List Char) : List Char :=
  l.dropWhile jsWhitespace

/-- `String.prototype.trimEnd`. -/
def jsTrimEnd (l : List Char) : List Char :=
  (l.reverse.dropWhile jsWhitespace).reverse

/-- `String.prototype.trim`. -/
def jsTrim (l : List Char) : List Char :=
  jsTrimEnd (jsTrimStart l)

/-- Length of the leading whitespace run (the greedy `\s+`). -/
def wsRun (l : List Char) : Nat :=
  (l.takeWhile jsWhitespace).length

/-- If `l` starts with `1.` followed by at least one whitespace character,
the length of the match of `1\.\s+` at the head of `l`. -/
def headMarker : List Char → Option Nat
  | '1' :: '.' :: rest =>
      let n := wsRun rest
      if n = 0 then none else some (2 + n)
  | _ => none

/-- First match of `\n1\.\s+` in `l`: relative index of the character
after the newline, and relative index just past the whole match
(`lastIndex`). -/
def nextMatch : List Char → Option (Nat × Nat)
  | [] => none
  | c :: rest =>
      if c = '\n' then
        match headMarker rest with
        | some len => some (1, 1 + len)
        | none =>
            match nextMatch rest with
            | some (i, e) => some (i + 1, e + 1)
            | none => none
      else
        match nextMatch rest with
        | some (i, e) => some (i + 1, e + 1)
        | none => none

/-- The `while ((match = re.exec(t)) !== null)` loop: repeatedly find the
next match starting from the previous `lastIndex`, remembering the
adjusted index of the match.  `fuel` bounds the iteration count; every
step consumes at least one character, so `t.length` is always enough. -/
def lastMarkerAux : Nat → List Char → Nat → Option Nat → Option Nat
  | 0, _, _, best => best
  | fuel + 1, l, pos, best =>
      match nextMatch l with
      | none => best
      | some (i, e) => lastMarkerAux fuel (l.drop e) (pos + e) (some (pos + i))

/-- `lastMatchIndex` of `renderStory`: the adjusted index of the last
match found by the `exec` loop for `/(^|\n)1\.\s+/g`, or `none`.  The `^`
alternative can only match at position 0, on the first iteration. -/
def findLastMarkerIndex (t : List Char) : Option Nat :=
  match headMarker t with
  | some len => lastMarkerAux t.length (t.drop len) len (some 0)
  | none => lastMarkerAux t.length t 0 none

/-- `buffer.split("\n")` up to the last newline: the complete
(newline-terminated) lines, and the leftover after the last newline. -/
def splitNl : List Char → List (List Char) × List Char
  | [] => ([], [])
  | c :: rest =>
      if c = '\n' then
        ([] :: (splitNl rest).1, (splitNl rest).2)
      else
        match splitNl rest with
        | ([], left) => ([], c :: left)
        | (l :: ls, left) => ((c :: l) :: ls, left)

/-- `s.split("\n")`: every segment, including the final one. -/
def splitNlAll (l : List Char) : List (List Char) :=
  (splitNl l).1 ++ [(splitNl l).2]

/-- Test of `^[1-3]\.\s+` against a line. -/
def choiceLineHead : List Char → Bool
  | d :: '.' :: w :: _ => (d == '1' || d == '2' || d == '3') && jsWhitespace w
  | _ => false

/-- Capture group 2 of `^([1-3])\.\s+(.*)$`: the text after the numeral,
dot and greedy whitespace run. -/
def choicePayload : List Char → List Char
  | _ :: '.' :: rest => rest.dropWhile jsWhitespace
  | _ => []

/-- The pure text-to-structure core of `renderStory` (app.js lines
87-124): trim the story text, split at the last `1. ` marker found by the
global regex scan, right-trim the part before it as the transcript, and
extract at most three choice payloads from the part after it. -/
def renderStoryExtract (text : List Char) : List Char × List (List Char) :=
  let t := jsTrim text
  match findLastMarkerIndex t with
  | none => (t, [])
  | some i =>
      let mainText := jsTrimEnd (t.take i)
      let choicesText := jsTrim (t.drop i)
      let lines := ((splitNlAll choicesText).map jsTrim).filter (fun l => !l.isEmpty)
      let choiceLines := (lines.filter choiceLineHead).take 3
      (mainText, choiceLines.map choicePayload)

/-- A line of `t` starting at this position begins with the three
characters `1. `, as the claim words the split marker. -/
def startsWith1Dot : List Char → Bool
  | '1' :: '.' :: ' ' :: _ => true
  | _ => false

/-- Helper for `specLastMarker`: scan every line start (position 0 and
each position following a newline) and keep the last one whose line
begins with `1. `. -/
def specLastMarkerGo : List Char → Nat → Option Nat → Option Nat
  | [], _, best => best
  | c :: rest, pos, best =>
      if c = '\n' then
        if startsWith1Dot rest then specLastMarkerGo rest (pos + 1) (some (pos + 1))
        else specLastMarkerGo rest (pos + 1) best
      else specLastMarkerGo rest (pos + 1) best

/-- The split point as the claim states it: the last occurrence of a line
beginning with `1. `. -/
def specLastMarker (t : List Char) : Option Nat :=
  specLastMarkerGo t 0 (if startsWith1Dot t then some 0 else none)

/-- The choice extraction as claim C7 states it: split at the last
occurrence of a line beginning with `1. `, right-trim the part before it
as the transcript, and parse at most three lines matching
`^[1-3]\.\s+(.*)$` from the remainder, in order, taking the captured text
as the payload; with no such line, the transcript is the whole trimmed
text and there are no choices. -/
def specChoiceExtract (text : List Char) : List Char × List (List Char) :=
  let t := jsTrim text
  match specLastMarker t with
  | none => (t, [])
  | some i =>
      let mainText := jsTrimEnd (t.take i)
      let remainder := t.drop i
      let choiceLines := ((splitNlAll remainder).filter choiceLineHead).take 3
      (mainText, choiceLines.map choicePayload)

/-- Claim C7: the code disagrees with the stated split rule (and with its
own comment, which says the LAST `1. ` line starts the choice block).  On
the text `A\n1. \n1. y` the greedy `\s+` of the first regex match consumes
the newline preceding the last `1. y` line, so the `exec` loop never sees
that marker: the code splits at the earlier degenerate `1. ` line and
yields transcript `A`, while the stated rule splits at the last `1. ` line
and yields transcript `A\n1.` (both extract the single choice `y`). -/
theorem C7_last_marker_bug :
    renderStoryExtract ("A\n1. \n1. y".toList) = ("A".toList, ["y".toList])
    ∧ specChoiceExtract ("A\n1. \n1. y".toList) = ("A\n1.".toList, ["y".toList])
    ∧ ("A".toList : List Char) ≠ "A\n1.".toList := by
  refine ⟨by decide, by decide, by decide⟩

/-!
`extractErrorMessage` (app.js lines 10-19).  `JSON.parse` is modelled as
an oracle `parse : List Char → Option JsVal` (`none` models a thrown
`SyntaxError`, caught by the `try`/`catch`); all properties below hold
for every oracle.  Field access `obj.detail` yields a value only on
objects; on every other JavaScript value produced by `JSON.parse` it is
`undefined`, hence never a string.
-/

/-- The JavaScript values `JSON.parse` can produce. -/
inductive JsVal where
  | null
  | bool (b : Bool)
  | num (q : Rat)
  | str (s : List Char)
  | arr (xs : List JsVal)
  | obj (fields : List (List Char × JsVal))

/-- JavaScript truthiness of a `JSON.parse` result. -/
def truthy : JsVal → Bool
  | .null => false
  | .bool b => b
  | .num q => q != 0
  | .str s => !s.isEmpty
  | .arr _ => true
  | .obj _ => true

/-- Property access on a parsed value: only objects have fields; with
duplicate keys `JSON.parse` keeps the last. -/
def jsField (k : List Char) : JsVal → Option JsVal
  | .obj fields => ((fields.filter (fun kv => kv.1 == k)).getLast?).map (fun kv => kv.2)
  | _ => none

/-- `typeof v.k === "string"` and the string itself. -/
def jsStringField (k : List Char) (v : JsVal) : Option (List Char) :=
  match jsField k v with
  | some (.str s) => some s
  | _ => none

/-- `extractErrorMessage(text)` from `app.js`, structured exactly as the
source: try to parse; if the result is truthy and has a string `detail`,
return it; else if truthy with a string `message`, return it; otherwise
fall through to `(text || "").trim() || "Request failed."`. -/
def extractErrorMessage (parse : List Char → Option JsVal) (text : List Char) : List Char :=
  let attempt : Option (List Char) :=
    match parse text with
    | some obj =>
        if truthy obj then
          match jsStringField ("detail".toList) obj with
          | some s => some s
          | none =>
              match jsStringField ("message".toList) obj with
              | some s => some s
              | none => none
        else none
    | none => none
  match attempt with
  | some s => s
  | none => if (jsTrim text).isEmpty then "Request failed.".toList else jsTrim text

/-- The behaviour claim C8 states: the `detail` field if the text parses
as JSON with a string `detail`, else the `message` field if that is a
string, else the trimmed raw text if non-empty, else `Request failed.`. -/
def specExtractErrorMessage (parse : List Char → Option JsVal) (text : List Char) : List Char :=
  match parse text with
  | some v =>
      match jsStringField ("detail".toList) v with
      | some s => s
      | none =>
          match jsStringField ("message".toList) v with
          | some s => s
          | none =>
              if (jsTrim text).isEmpty then "Request failed.".toList else jsTrim text
  | none => if (jsTrim text).isEmpty then "Request failed.".toList else jsTrim text

/-- Claim C8: for every parse oracle and every response text,
`extractErrorMessage` returns exactly what the claim describes — the
string `detail` field of the parsed JSON if present, else the string
`message` field, else the trimmed raw text if non-empty, else
`Request failed.` — and, being a total function, it never throws. -/
theorem C8_extract_error_message (parse : List Char → Option JsVal) (text : List Char) :
    extractErrorMessage parse text = specExtractErrorMessage parse text := by
  unfold extractErrorMessage specExtractErrorMessage
  cases hp : parse text with
  | none => rfl
  | some v =>
    dsimp only
    by_cases hv : truthy v = true
    · rw [if_pos hv]
      cases hd : jsStringField ("detail".toList) v with
      | some s => rfl
      | none =>
        cases hm : jsStringField ("message".toList) v with
        | some s => rfl
        | none => rfl
    · rw [if_neg hv]
      have hd : jsStringField ("detail".toList) v = none := by
        cases v with
        | obj fields => simp [truthy] at hv
        | arr xs => simp [truthy] at hv
        | null => rfl
        | bool b => rfl
        | num q => rfl
        | str s => rfl
      have hm : jsStringField ("message".toList) v = none := by
        cases v with
        | obj fields => simp [truthy] at hv
        | arr xs => simp [truthy] at hv
        | null => rfl
        | bool b => rfl
        | num q => rfl
        | str s => rfl
      rw [hd, hm]

/-!
`streamNdjson` (app.js lines 188-228).  The reader loop appends each
received chunk to a buffer, repeatedly splits off the text before the
first newline, trims it, skips it when blank, parses it as JSON and calls
`onEvent` with the result, skipping the line when parsing throws; when
the stream ends, whatever remains in the buffer (no trailing newline) is
discarded.  `JSON.parse` is again an oracle; the events passed to
`onEvent`, in order, are the value of the model.
-/

/-- Handling of one complete line by the reader loop: trim, skip when
blank, otherwise parse, skipping the line when parsing fails. -/
def lineEvent {Ev : Type} (parse : List Char → Option Ev) (line : List Char) : Option Ev :=
  let t := jsTrim line
  if t.isEmpty then none else parse t

/-- Events produced by a list of complete lines, in order. -/
def lineEvents {Ev : Type} (parse : List Char → Option Ev) (lines : List (List Char)) :
    List Ev :=
  lines.filterMap (lineEvent parse)

/-- The reader loop of `streamNdjson`: for each chunk, append it to the
carried buffer, emit the events of all complete lines now in the buffer,
and carry the remainder to the next read; at end of stream the leftover
buffer is dropped. -/
def streamSteps {Ev : Type} (parse : List Char → Option Ev) :
    List (List Char) → List Char → List Ev
  | [], _ => []
  | chunk :: rest, buf =>
      lineEvents parse (splitNl (buf ++ chunk)).1
        ++ streamSteps parse rest (splitNl (buf ++ chunk)).2

/-- `streamNdjson` as a function of the chunk sequence. -/
def streamNdjson {Ev : Type} (parse : List Char → Option Ev) (chunks : List (List Char)) :
    List Ev :=
  streamSteps parse chunks []

theorem splitNl_left_no_nl (l : List Char) : '\n' ∉ (splitNl l).2 := by
  induction l with
  | nil => simp [splitNl]
  | cons c rest ih =>
    by_cases hc : c = '\n'
    · subst hc
      simpa [splitNl] using ih
    · simp only [splitNl, if_neg hc]
      rcases h1 : splitNl rest with ⟨l1, left1⟩
      rw [h1] at ih
      cases l1 with
      | nil =>
        simp only []
        intro hmem
        rcases List.mem_cons.mp hmem with h | h
        · exact hc h.symm
        · exact ih h
      | cons m ms => exact ih

theorem splitNl_append (x y : List Char) :
    (splitNl (x ++ y)).1 = (splitNl x).1 ++ (splitNl ((splitNl x).2 ++ y)).1
    ∧ (splitNl (x ++ y)).2 = (splitNl ((splitNl x).2 ++ y)).2 := by
  induction x with
  | nil => simp [splitNl]
  | cons c x' ih =>
    obtain ⟨ih1, ih2⟩ := ih
    by_cases hc : c = '\n'
    · subst hc
      simp only [List.cons_append, splitNl, if_pos rfl]
      constructor
      · simp [ih1]
      · simp [ih2]
    · simp only [List.cons_append, splitNl, if_neg hc]
      simp only [List.append_eq]
      rcases h1 : splitNl x' with ⟨l1, left1⟩
      rw [h1] at ih1 ih2
      rcases h2 : splitNl (left1 ++ y) with ⟨l2, left2⟩
      rw [h2] at ih1 ih2
      have h3 : splitNl (x' ++ y) = (l1 ++ l2, left2) := by
        rcases h4 : splitNl (x' ++ y) with ⟨a, b⟩
        rw [h4] at ih1 ih2
        simp only [] at ih1 ih2
        rw [ih1, ih2]
      rw [h3]
      cases l1 with
      | nil =>
        simp only [List.nil_append]
        cases l2 with
        | nil =>
          simp only []
          have hstep : splitNl (c :: left1 ++ y) = ([], c :: left2) := by
            simp only [List.cons_append, splitNl, if_neg hc, List.append_eq]
            rw [h2]
          rw [hstep]
          simp
        | cons m ms =>
          simp only []
          have hstep : splitNl (c :: left1 ++ y) = ((c :: m) :: ms, left2) := by
            simp only [List.cons_append, splitNl, if_neg hc, List.append_eq]
            rw [h2]
          rw [hstep]
          simp
      | cons m ms =>
        simp only [List.cons_append]
        rw [h2]
        exact ⟨rfl, rfl⟩


theorem splitNl_no_nl (l : List Char) (h : '\n' ∉ l) : splitNl l = ([], l) := by
  induction l with
  | nil => rfl
  | cons c rest ih =>
    have hc : ¬c = '\n' := fun hcc => h (hcc ▸ List.mem_cons_self c rest)
    have h2 : '\n' ∉ rest := fun hm => h (List.mem_cons_of_mem c hm)
    simp only [splitNl, if_neg hc, ih h2]

theorem lineEvents_append {Ev : Type} (parse : List Char → Option Ev)
    (a b : List (List Char)) :
    lineEvents parse (a ++ b) = lineEvents parse a ++ lineEvents parse b := by
  simp [lineEvents, List.filterMap_append]

theorem streamSteps_join {Ev : Type} (parse : List Char → Option Ev)
    (chunks : List (List Char)) :
    ∀ buf : List Char, '\n' ∉ buf →
      streamSteps parse chunks buf = lineEvents parse (splitNl (buf ++ chunks.flatten)).1 := by
  induction chunks with
  | nil =>
    intro buf hb
    show ([] : List Ev) = _
    simp [splitNl_no_nl buf hb, lineEvents]
  | cons chunk rest ih =>
    intro buf hb
    show lineEvents parse (splitNl (buf ++ chunk)).1
        ++ streamSteps parse rest (splitNl (buf ++ chunk)).2 = _
    rw [ih _ (splitNl_left_no_nl (buf ++ chunk))]
    have hj : buf ++ (chunk :: rest).flatten = (buf ++ chunk) ++ rest.flatten := by
      simp [List.append_assoc]
    rw [hj, (splitNl_append (buf ++ chunk) rest.flatten).1, lineEvents_append]

/-- Claim C9: the chunked reader loop of `streamNdjson` is equivalent to
splitting the whole received text into its newline-terminated lines and
handling each line independently: `onEvent` is invoked exactly once per
line whose trimmed text parses as JSON, in stream order, and every blank
or malformed line contributes nothing (it is skipped without aborting the
stream or affecting any later line), regardless of how the text was cut
into chunks. -/
theorem C9_ndjson_lines {Ev : Type} (parse : List Char → Option Ev)
    (chunks : List (List Char)) :
    streamNdjson parse chunks = lineEvents parse (splitNl chunks.flatten).1 := by
  have h := streamSteps_join parse chunks [] (by simp)
  simpa [streamNdjson] using h

/-!
`sendAction` (app.js lines 291-348).  Before any other statement the
handler reads `actionEl.value.trim()` and returns when it is empty; only
past that guard does it disable the buttons, clear the input, build the
prefix, render the progress box and start the streaming request.  The
streaming part is a parameter `turnStream` of the model (it is
asynchronous network work whose behaviour the claim does not constrain);
the boolean result records whether a request was issued.
-/

/-- The pieces of page state that `sendAction` reads or writes. -/
structure UIState where
  actionValue : String
  sendDisabled : Bool
  newDisabled : Bool
  currentStoryText : String
  storyDisplay : String
  tw : TW
  deriving Repr, DecidableEq

/-- `trim()` on a string value. -/
def jsTrimStr (s : String) : String :=
  String.mk (jsTrim s.data)

/-- `sendAction()`: guard on the trimmed input, then disable the buttons,
clear the input, build `prefix`, render the progress text and hand off to
the streaming request. -/
def sendAction (turnStream : String → UIState → UIState) (st : UIState) : UIState × Bool :=
  let action := jsTrimStr st.actionValue
  if action = "" then (st, false)
  else
    let st1 := { st with sendDisabled := true, newDisabled := true, actionValue := "" }
    let pfx := (if st.currentStoryText ≠ "" then jsTrimStr st.currentStoryText ++ "\n\n" else "")
      ++ "> You: " ++ action ++ "\n\n"
    (turnStream pfx { st1 with storyDisplay := pfx ++ "(Thinking…)\n" }, true)

/-- Claim C10: when the input is empty or whitespace-only after trimming,
`sendAction` returns immediately: no request is issued (the result does
not depend on `turnStream` and the request flag is false) and the whole
state — buttons, input value, story text, stream queue, pending finalize
action — is returned unchanged. -/
theorem C10_blank_action (turnStream : String → UIState → UIState) (st : UIState)
    (h : jsTrimStr st.actionValue = "") :
    sendAction turnStream st = (st, false)
    ∧ (sendAction turnStream st).1.sendDisabled = st.sendDisabled
    ∧ (sendAction turnStream st).1.newDisabled = st.newDisabled
    ∧ (sendAction turnStream st).1.actionValue = st.actionValue
    ∧ (sendAction turnStream st).1.tw.streamQueue = st.tw.streamQueue
    ∧ (sendAction turnStream st).1.tw.pendingFinalizeFn = st.tw.pendingFinalizeFn := by
  have he : sendAction turnStream st = (st, false) := by
    unfold sendAction
    dsimp only
    rw [if_pos h]
  refine ⟨he, ?_, ?_, ?_, ?_, ?_⟩ <;> rw [he]

/-- A concrete state used in the witness for C10_blank_action. -/
def c10State : UIState :=
  { actionValue := "   ", sendDisabled := false, newDisabled := false,
    currentStoryText := "Once upon a time", storyDisplay := "story box", tw := twInit }

/-- Witness for C10_blank_action at a concrete state, with a `turnStream`
that would visibly change the state if it ran. -/
theorem C10_witness :
    sendAction (fun _ s => { s with storyDisplay := "CHANGED" }) c10State
      = (c10State, false) :=
  (C10_blank_action (fun _ s => { s with storyDisplay := "CHANGED" }) c10State (by decide)).1
